import Mathlib

/-!
Verification of the markdown-to-HTML conversion core of
`Utils/generate_site.py` (class `MarkdownToHtml`).

The converter is a pipeline of regex substitutions over one text buffer.
Each concrete regex of the source is embedded here as a character-list
scanner with exactly the semantics of `re.sub` for that pattern
(leftmost match, global, replaced spans are not rescanned; `.` does not
match a newline unless the source pass uses DOTALL; greedy and
non-greedy repetition follow the source pattern).  All definitions are
structurally recursive so that the kernel can evaluate them on concrete
inputs.
-/

namespace Flowery

/-- Python whitespace: the set stripped by `str.strip()` and matched by
the regex class `\s`. -/
def isPySpace (c : Char) : Bool :=
  c = ' ' || c = '\t' || c = '\n' || c = '\r' || c = '\x0b' || c = '\x0c'

/-- Python `str.strip()`: remove leading and trailing whitespace. -/
def pyStrip (s : List Char) : List Char :=
  ((s.dropWhile isPySpace).reverse.dropWhile isPySpace).reverse

/-- Python `str.split(sep)` for a one-character separator (keeps empty
fields, as Python does). -/
def pySplit (sep : Char) : List Char → List (List Char)
  | [] => [[]]
  | c :: cs =>
    match pySplit sep cs with
    | [] => [[c]]
    | h :: t => if c = sep then [] :: h :: t else (c :: h) :: t

/-- Python `'\n'.join(...)`. -/
def joinLines : List (List Char) → List Char
  | [] => []
  | [l] => l
  | l :: ls => l ++ '\n' :: joinLines ls

/-- The backtick character (U+0060). -/
def btick : Char := Char.ofNat 96

/-- Generic `re.sub` loop for one concrete pattern.  `f s` returns the
replacement text together with the length of the match when the pattern
matches at the start of `s`.  After a match the scanner resumes after
the matched span; the countdown in the first argument skips the
remainder of a match so that the recursion is structural on the text. -/
def subGo (f : List Char → Option (List Char × Nat)) : Nat → List Char → List Char
  | _, [] => []
  | Nat.succ k, _ :: cs => subGo f k cs
  | 0, c :: cs =>
    match f (c :: cs) with
    | some (out, len) => out ++ subGo f (len - 1) cs
    | none => c :: subGo f 0 cs

/-- `re.sub` with matcher `f`, scanning the whole buffer. -/
def reSub (f : List Char → Option (List Char × Nat)) (s : List Char) : List Char :=
  subGo f 0 s

/-- Matcher realising Python `str.replace(pat, rep)` for a nonempty
pattern. -/
def matchPat (pat rep : List Char) (s : List Char) : Option (List Char × Nat) :=
  if pat.isPrefixOf s ∧ pat ≠ [] then some (rep, pat.length) else none

/-- Python `str.replace(pat, rep)` (all occurrences, left to right, no
rescan of replacements). -/
def replaceAll (pat rep s : List Char) : List Char :=
  reSub (matchPat pat rep) s

/-- `MarkdownToHtml._escape_html`: replace `&` first, then `<`, then `>`. -/
def escape_html (text : List Char) : List Char :=
  replaceAll ['>'] "&gt;".toList
    (replaceAll ['<'] "&lt;".toList
      (replaceAll ['&'] "&amp;".toList text))

/-- A line is blank when `line.strip()` is empty. -/
def isBlankLine (l : List Char) : Bool := (pyStrip l).isEmpty

/-- The `prev_blank` loop of `_clean_code_block`: every run of blank
lines becomes a single empty line. -/
def collapseBlankRuns : Bool → List (List Char) → List (List Char)
  | _, [] => []
  | prevBlank, l :: ls =>
    if isBlankLine l then
      if prevBlank then collapseBlankRuns true ls
      else [] :: collapseBlankRuns true ls
    else l :: collapseBlankRuns false ls

/-- Line-level body of `_clean_code_block`: drop leading and trailing
blank lines, then collapse interior blank runs. -/
def cleanLines (ls : List (List Char)) : List (List Char) :=
  collapseBlankRuns false (((ls.dropWhile isBlankLine).reverse.dropWhile isBlankLine).reverse)

/-- `MarkdownToHtml._clean_code_block`. -/
def clean_code_block (code : List Char) : List Char :=
  joinLines (cleanLines (pySplit '\n' code))

/-- Decimal digits of a natural number (the fuel is structural; `n + 1`
steps always suffice). -/
def natDigitsAux : Nat → Nat → List Char → List Char
  | 0, _, acc => acc
  | Nat.succ fuel, n, acc =>
    let d := Char.ofNat (48 + n % 10)
    if n < 10 then d :: acc else natDigitsAux fuel (n / 10) (d :: acc)

/-- Decimal representation of a natural number, as in Python `str(i)`. -/
def natDigits (n : Nat) : List Char := natDigitsAux (n + 1) n []

/-- The placeholder sentinel `__CODE_BLOCK_{i}__` emitted by
`save_code_block`. -/
def placeholder (i : Nat) : List Char :=
  "__CODE_BLOCK_".toList ++ natDigits i ++ "__".toList

/-- The HTML stored by `save_code_block` for one fenced block: language
tag defaulting to `text`, cleaned and escaped body, `<pre><code>`
wrapper. -/
def save_code_block (lang : Option (List Char)) (code : List Char) : List Char :=
  "<pre><code class=\"language-".toList ++ lang.getD "text".toList ++ "\">".toList
    ++ escape_html (clean_code_block code) ++ "</code></pre>".toList

/-- The regex class `\w` (ASCII reading). -/
def isWordChar (c : Char) : Bool := c.isAlphanum || c = '_'

/-- Earliest occurrence of `pat`: returns the text before the first
occurrence and the text after it (non-greedy `(.*?)pat`). -/
def splitAtFirst (pat : List Char) : List Char → Option (List Char × List Char)
  | [] => none
  | c :: cs =>
    if pat.isPrefixOf (c :: cs) then some ([], (c :: cs).drop pat.length)
    else
      match splitAtFirst pat cs with
      | some (a, b) => some (c :: a, b)
      | none => none

/-- Matcher for the fenced-code-block regex of `convert`:
triple backtick, optional `\w+` language tag, newline, non-greedy body
(DOTALL), closing triple backtick.  Returns the language group, the
body, and the total length of the match. -/
def tryFence (s : List Char) : Option (Option (List Char) × List Char × Nat) :=
  if "```".toList.isPrefixOf s then
    let afterTicks := s.drop 3
    let w := afterTicks.takeWhile isWordChar
    match afterTicks.drop w.length with
    | c :: rest =>
      if c = '\n' then
        match splitAtFirst "```".toList rest with
        | some (content, _) =>
          some (if w.isEmpty then none else some w, content,
            3 + w.length + 1 + content.length + 3)
        | none => none
      else none
    | [] => none
  else none

/-- The code-block extraction sweep of `convert`: each fenced block is
replaced by `__CODE_BLOCK_{i}__` and its rendered HTML is appended to
the block list.  The countdown skips the remainder of a match. -/
def extractGo : Nat → List (List Char) → List Char → List Char × List (List Char)
  | Nat.succ k, bs, _ :: cs => extractGo k bs cs
  | _, bs, [] => ([], bs)
  | 0, bs, c :: cs =>
    match tryFence (c :: cs) with
    | some (lang, content, len) =>
      let r := extractGo (len - 1) (bs ++ [save_code_block lang content]) cs
      (placeholder bs.length ++ r.1, r.2)
    | none =>
      let r := extractGo 0 bs cs
      (c :: r.1, r.2)

/-- Matcher for the inline-code regex (backtick, one or more
non-backtick characters, backtick). -/
def tryInlineCode (s : List Char) : Option (List Char × Nat) :=
  match s with
  | c :: rest =>
    if c = btick then
      let content := rest.takeWhile (fun x => x ≠ btick)
      if content.isEmpty then none
      else
        match rest.drop content.length with
        | c2 :: _ =>
          if c2 = btick then
            some ("<code>".toList ++ content ++ "</code>".toList, content.length + 2)
          else none
        | _ => none
    else none
  | _ => none

/-- `convert_image` from `convert`: build the `<img>` tag, prefixing a
non-absolute `src` with `../`. -/
def convert_image (alt src : List Char) : List Char :=
  let src2 :=
    if "http://".toList.isPrefixOf src || "https://".toList.isPrefixOf src
        || "/".toList.isPrefixOf src then src
    else "../".toList ++ src
  "<img src=\"".toList ++ src2 ++ "\" alt=\"".toList ++ alt
    ++ "\" style=\"max-width:100%;height:auto;\">".toList

/-- Matcher for the image regex: an exclamation mark, `[` possibly-empty
alt not containing `]`, `](`, nonempty src not containing `)`, `)`. -/
def tryImage : List Char → Option (List Char × Nat)
  | '!' :: '[' :: rest =>
    let alt := rest.takeWhile (fun c => c ≠ ']')
    match rest.drop alt.length with
    | ']' :: '(' :: rest2 =>
      let src := rest2.takeWhile (fun c => c ≠ ')')
      if src.isEmpty then none
      else
        match rest2.drop src.length with
        | ')' :: _ => some (convert_image alt src, 4 + alt.length + src.length + 1)
        | _ => none
    | _ => none
  | _ => none

/-- Matcher for the link regex: `[` nonempty text `](` nonempty url `)`. -/
def tryLink : List Char → Option (List Char × Nat)
  | '[' :: rest =>
    let txt := rest.takeWhile (fun c => c ≠ ']')
    if txt.isEmpty then none
    else
      match rest.drop txt.length with
      | ']' :: '(' :: rest2 =>
        let url := rest2.takeWhile (fun c => c ≠ ')')
        if url.isEmpty then none
        else
          match rest2.drop url.length with
          | ')' :: _ =>
            some ("<a href=\"".toList ++ url ++ "\">".toList ++ txt ++ "</a>".toList,
              3 + txt.length + url.length + 1)
          | _ => none
      | _ => none
  | _ => none

/-- One MULTILINE header substitution `^mark(.+)$` applied to one line. -/
def headerLine (mark openTag closeTag l : List Char) : List Char :=
  if mark.isPrefixOf l ∧ mark.length < l.length then
    openTag ++ l.drop mark.length ++ closeTag
  else l

/-- The three header passes of `convert`, in source order: `###`, then
`##`, then `#`.  The patterns are line-anchored, so they act per line. -/
def headersPass (s : List Char) : List Char :=
  joinLines ((pySplit '\n' s).map (fun l =>
    headerLine "# ".toList "<h1>".toList "</h1>".toList
      (headerLine "## ".toList "<h2>".toList "</h2>".toList
        (headerLine "### ".toList "<h3>".toList "</h3>".toList l))))

/-- Non-greedy search for `(.+?)close`: the shortest nonempty run of
non-newline characters followed by `close`. -/
def findEmphClose (close : List Char) : List Char → Option (List Char)
  | [] => none
  | c :: cs =>
    if c = '\n' then none
    else if close.isPrefixOf cs then some [c]
    else
      match findEmphClose close cs with
      | some content => some (c :: content)
      | none => none

/-- Matcher for the bold regex (two asterisks, non-greedy body, two
asterisks). -/
def tryBold (s : List Char) : Option (List Char × Nat) :=
  if "**".toList.isPrefixOf s then
    match findEmphClose "**".toList (s.drop 2) with
    | some content =>
      some ("<strong>".toList ++ content ++ "</strong>".toList, content.length + 4)
    | none => none
  else none

/-- Matcher for the italic regex (one asterisk, non-greedy body, one
asterisk). -/
def tryItalic (s : List Char) : Option (List Char × Nat) :=
  if "*".toList.isPrefixOf s then
    match findEmphClose "*".toList (s.drop 1) with
    | some content =>
      some ("<em>".toList ++ content ++ "</em>".toList, content.length + 2)
    | none => none
  else none

/-- Does a list start with a pipe character? -/
def startsWithPipe : List Char → Bool
  | '|' :: _ => true
  | _ => false

/-- The table-line test of `_convert_tables`: the line contains a pipe
and its stripped form starts with a pipe. -/
def isTableLine (l : List Char) : Bool :=
  l.contains '|' && startsWithPipe (pyStrip l)

/-- Cell extraction of `_build_table`: split on pipes, drop the first
and last fields (`[1:-1]`), strip each remaining field. -/
def cellsOf (line : List Char) : List (List Char) :=
  (((pySplit '|' line).drop 1).dropLast).map pyStrip

/-- The html lines built by `_build_table` for header line `l0` and body
lines `body` (each body cell receives the inline-code substitution). -/
def tableHtmlLines (l0 : List Char) (body : List (List Char)) : List (List Char) :=
  ["<div class=\"table-wrapper\"><table>".toList, "<thead><tr>".toList]
    ++ (cellsOf l0).map (fun c => "<th>".toList ++ c ++ "</th>".toList)
    ++ ["</tr></thead>".toList, "<tbody>".toList]
    ++ (body.map (fun line =>
          ["<tr>".toList]
            ++ ((cellsOf line).map (fun cell =>
                  "<td>".toList ++ reSub tryInlineCode cell ++ "</td>".toList))
            ++ ["</tr>".toList])).flatten
    ++ ["</tbody>".toList, "</table></div>".toList]

/-- `MarkdownToHtml._build_table`: runs shorter than two lines are
emitted verbatim, otherwise line 0 is the header, line 1 is discarded,
lines 2.. are the body. -/
def build_table (lines : List (List Char)) : List Char :=
  if lines.length < 2 then joinLines lines
  else
    match lines with
    | [] => []
    | l0 :: rest => joinLines (tableHtmlLines l0 (rest.drop 1))

/-- The line scan of `_convert_tables`: consecutive table lines
accumulate and are flushed through `build_table`. -/
def tablesGo (acc : List (List Char)) : List (List Char) → List (List Char)
  | [] => if acc.isEmpty then [] else [build_table acc]
  | l :: ls =>
    if isTableLine l then tablesGo (acc ++ [l]) ls
    else if acc.isEmpty then l :: tablesGo [] ls
    else build_table acc :: l :: tablesGo [] ls

/-- `MarkdownToHtml._convert_tables`. -/
def convert_tables (html : List Char) : List Char :=
  joinLines (tablesGo [] (pySplit '\n' html))

/-- The MULTILINE list-item substitution `^- (.+)$` applied to one line. -/
def listItemLine (l : List Char) : List Char :=
  if "- ".toList.isPrefixOf l ∧ 2 < l.length then
    "<li>".toList ++ l.drop 2 ++ "</li>".toList
  else l

/-- The list-item pass of `convert`. -/
def listItemsPass (s : List Char) : List Char :=
  joinLines ((pySplit '\n' s).map listItemLine)

/-- Start index of the last occurrence of `pat`. -/
def lastOcc (pat : List Char) : List Char → Option Nat
  | [] => none
  | c :: cs =>
    match lastOcc pat cs with
    | some i => some (i + 1)
    | none => if pat.isPrefixOf (c :: cs) then some 0 else none

/-- One `<li>.*</li>` unit of the list-wrapping regex: the greedy `.*`
(which cannot cross a newline) reaches to the last `</li>` on the
current line.  Returns the unit length. -/
def tryLiUnit (s : List Char) : Option Nat :=
  if "<li>".toList.isPrefixOf s then
    match lastOcc "</li>".toList ((s.takeWhile (fun c => c ≠ '\n')).drop 4) with
    | some i => some (4 + i + 5)
    | none => none
  else none

/-- The greedy `(<li>.*</li>\n?)+` loop: total length matched from the
start of `s`.  The fuel is structural; `s.length + 1` steps suffice
since every unit is nonempty. -/
def liRun : Nat → List Char → Nat
  | 0, _ => 0
  | Nat.succ fuel, s =>
    match tryLiUnit s with
    | none => 0
    | some len =>
      let len2 := match s.drop len with
        | '\n' :: _ => len + 1
        | _ => len
      len2 + liRun fuel (s.drop len2)

/-- Matcher for the list-wrapping regex: wrap a maximal run of `<li>`
lines in one `<ul>...</ul>`. -/
def tryUl (s : List Char) : Option (List Char × Nat) :=
  match liRun (s.length + 1) s with
  | 0 => none
  | Nat.succ n =>
    some ("<ul>".toList ++ s.take (n + 1) ++ "</ul>".toList, n + 1)

/-- The paragraph wrapper of `convert` for one line: wrap the stripped
line unless it is empty, already starts with `<`, or is a placeholder. -/
def paragraphLine (l : List Char) : List Char :=
  let stripped := pyStrip l
  if stripped.isEmpty then l
  else if "<".toList.isPrefixOf stripped then l
  else if "__CODE_BLOCK_".toList.isPrefixOf stripped then l
  else "<p>".toList ++ stripped ++ "</p>".toList

/-- The paragraph pass of `convert`. -/
def paragraphsPass (s : List Char) : List Char :=
  joinLines ((pySplit '\n' s).map paragraphLine)

/-- Matcher for the empty-paragraph cleanup regex `<p>\s*</p>`. -/
def tryEmptyP (s : List Char) : Option (List Char × Nat) :=
  if "<p>".toList.isPrefixOf s then
    let ws := (s.drop 3).takeWhile isPySpace
    if "</p>".toList.isPrefixOf ((s.drop 3).drop ws.length) then
      some ([], 3 + ws.length + 4)
    else none
  else none

/-- The restoration loop of `convert`: for each index in order, replace
every occurrence of its placeholder by the stored block HTML. -/
def restoreFrom : Nat → List (List Char) → List Char → List Char
  | _, [], html => html
  | i, b :: bs, html => restoreFrom (i + 1) bs (replaceAll (placeholder i) b html)

/-- `MarkdownToHtml.convert`: the full pipeline, in source order. -/
def convert (markdown : List Char) : List Char :=
  let extracted := extractGo 0 [] markdown
  let h1 := reSub tryInlineCode extracted.1
  let h2 := reSub tryImage h1
  let h3 := reSub tryLink h2
  let h4 := headersPass h3
  let h5 := reSub tryBold h4
  let h6 := reSub tryItalic h5
  let h7 := convert_tables h6
  let h8 := listItemsPass h7
  let h9 := reSub tryUl h8
  let h10 := paragraphsPass h9
  let h11 := reSub tryEmptyP h10
  restoreFrom 0 extracted.2 h11

/-- `convert` on `String`s. -/
def convertStr (markdown : String) : String :=
  String.mk (convert markdown.toList)

/-- Number of start positions at which `pat` occurs in a list. -/
def countSub (pat : List Char) : List Char → Nat
  | [] => 0
  | c :: cs => (if pat.isPrefixOf (c :: cs) then 1 else 0) + countSub pat cs

/-- The common stem of every placeholder token. -/
def sentinel : List Char := "__CODE_BLOCK_".toList

/-- Header-cell extraction as worded by the spec, for comparison with
`cellsOf`: split on the pipe, drop the outer fields only when they are
the empty fields arising from a leading or a trailing pipe, trim each
remaining cell. -/
def specHeaderCells (line : List Char) : List (List Char) :=
  let fields := pySplit '|' line
  let f1 := match fields with
    | [] :: rest => rest
    | l => l
  let f2 := if f1.getLast? = some [] then f1.dropLast else f1
  f2.map pyStrip

/-- Blank-run collapsing as worded by the spec, for comparison with
`collapseBlankRuns`: every maximal run of one or more consecutive blank
lines becomes exactly one blank line (the run is skipped as a whole and
one empty line is emitted in its place); non-blank lines are kept. -/
def specCollapse : List (List Char) → List (List Char)
  | [] => []
  | l :: ls =>
    if isBlankLine l then [] :: specCollapse (ls.dropWhile isBlankLine)
    else l :: specCollapse ls
termination_by ls => ls.length
decreasing_by
  · simp only [List.length_cons]
    exact Nat.lt_succ_of_le (List.dropWhile_sublist isBlankLine).length_le
  · simp only [List.length_cons]
    omega

/-- No leading blank line. -/
def noLeadingBlank : List (List Char) → Bool
  | [] => true
  | l :: _ => !(isBlankLine l)

/-- No trailing blank line. -/
def noTrailingBlank (ls : List (List Char)) : Bool :=
  match ls.getLast? with
  | none => true
  | some l => !(isBlankLine l)

/-- No two adjacent blank lines. -/
def noDoubleBlank : List (List Char) → Bool
  | [] => true
  | [_] => true
  | a :: b :: rest => (!(isBlankLine a && isBlankLine b)) && noDoubleBlank (b :: rest)

/-- `_build_table` with the sole partial operation of the converter,
the `lines[0]` subscript, modelled as a checked access. -/
def build_tableOpt (lines : List (List Char)) : Option (List Char) :=
  if lines.length < 2 then some (joinLines lines)
  else
    match lines.head? with
    | none => none
    | some l0 => some (joinLines (tableHtmlLines l0 (lines.drop 2)))

/-- `_convert_tables` scan over the checked `build_tableOpt`. -/
def tablesGoOpt (acc : List (List Char)) : List (List Char) → Option (List (List Char))
  | [] => if acc.isEmpty then some [] else (build_tableOpt acc).map (fun t => [t])
  | l :: ls =>
    if isTableLine l then tablesGoOpt (acc ++ [l]) ls
    else if acc.isEmpty then (tablesGoOpt [] ls).map (fun r => l :: r)
    else
      match build_tableOpt acc, tablesGoOpt [] ls with
      | some t, some r => some (t :: l :: r)
      | _, _ => none

/-- `_convert_tables` with checked accesses. -/
def convert_tablesOpt (html : List Char) : Option (List Char) :=
  (tablesGoOpt [] (pySplit '\n' html)).map joinLines

/-- `convert` with every partial operation checked: returns `none` if
any access could fail. -/
def convertOpt (markdown : List Char) : Option (List Char) :=
  let extracted := extractGo 0 [] markdown
  let h1 := reSub tryInlineCode extracted.1
  let h2 := reSub tryImage h1
  let h3 := reSub tryLink h2
  let h4 := headersPass h3
  let h5 := reSub tryBold h4
  let h6 := reSub tryItalic h5
  match convert_tablesOpt h6 with
  | none => none
  | some h7 =>
    let h8 := listItemsPass h7
    let h9 := reSub tryUl h8
    let h10 := paragraphsPass h9
    let h11 := reSub tryEmptyP h10
    some (restoreFrom 0 extracted.2 h11)

end Flowery

namespace Flowery

set_option maxRecDepth 40000

theorem pySplit_ne_nil (sep : Char) (s : List Char) : pySplit sep s ≠ [] := by
  cases s with
  | nil => simp [pySplit]
  | cons c cs =>
    cases h : pySplit sep cs with
    | nil => simp [pySplit, h]
    | cons a t =>
      simp only [pySplit, h]
      split <;> simp

theorem pySplit_cons_sep (sep : Char) (xs : List Char) :
    pySplit sep (sep :: xs) = [] :: pySplit sep xs := by
  cases h : pySplit sep xs with
  | nil => exact absurd h (pySplit_ne_nil sep xs)
  | cons a t => simp [pySplit, h]

theorem pySplit_cons_ne {sep c : Char} (hc : c ≠ sep) (xs : List Char) :
    pySplit sep (c :: xs) =
      (c :: (pySplit sep xs).headI) :: (pySplit sep xs).tail := by
  cases h : pySplit sep xs with
  | nil => exact absurd h (pySplit_ne_nil sep xs)
  | cons a t => simp [pySplit, h, hc]

theorem pySplit_append_sep (sep : Char) (s : List Char) :
    pySplit sep (s ++ [sep]) = pySplit sep s ++ [[]] := by
  induction s with
  | nil => simp [pySplit]
  | cons c cs ih =>
    by_cases hc : c = sep
    · subst hc
      rw [List.cons_append, pySplit_cons_sep, pySplit_cons_sep, ih]
      rfl
    · rw [List.cons_append, pySplit_cons_ne hc, pySplit_cons_ne hc, ih]
      cases h : pySplit sep cs with
      | nil => exact absurd h (pySplit_ne_nil sep cs)
      | cons a t => simp [h]

theorem isBlankLine_nil : isBlankLine [] = true := by decide

theorem filter_not_dropWhile {α : Type} (p : α → Bool) (ls : List α) :
    (ls.dropWhile p).filter (fun x => !(p x)) = ls.filter (fun x => !(p x)) := by
  induction ls with
  | nil => rfl
  | cons l ls ih =>
    by_cases h : p l = true
    · rw [List.dropWhile_cons_of_pos h, ih, List.filter_cons_of_neg (by simp [h])]
    · rw [List.dropWhile_cons_of_neg h]

theorem collapse_filter (b : Bool) (ls : List (List Char)) :
    (collapseBlankRuns b ls).filter (fun l => !(isBlankLine l))
      = ls.filter (fun l => !(isBlankLine l)) := by
  induction ls generalizing b with
  | nil => rfl
  | cons l ls ih =>
    by_cases h : isBlankLine l = true
    · cases b with
      | true =>
        rw [show collapseBlankRuns true (l :: ls) = collapseBlankRuns true ls by
              simp [collapseBlankRuns, h],
          ih, List.filter_cons_of_neg (by simp [h])]
      | false =>
        rw [show collapseBlankRuns false (l :: ls) = [] :: collapseBlankRuns true ls by
              simp [collapseBlankRuns, h],
          List.filter_cons_of_neg (by simp [isBlankLine_nil]),
          ih, List.filter_cons_of_neg (by simp [h])]
    · rw [show collapseBlankRuns b (l :: ls) = l :: collapseBlankRuns false ls by
            simp [collapseBlankRuns, h],
        List.filter_cons_of_pos (by simp [h]), ih,
        List.filter_cons_of_pos (by simp [h])]

theorem noLeadingBlank_dropWhile (ls : List (List Char)) :
    noLeadingBlank (ls.dropWhile isBlankLine) = true := by
  induction ls with
  | nil => rfl
  | cons l ls ih =>
    by_cases h : isBlankLine l = true
    · rw [List.dropWhile_cons_of_pos h]; exact ih
    · rw [List.dropWhile_cons_of_neg h]
      simp [noLeadingBlank, h]

theorem noLeadingBlank_of_pre {P L : List (List Char)}
    (hp : P <+: L) (hL : noLeadingBlank L = true) : noLeadingBlank P = true := by
  cases P with
  | nil => rfl
  | cons x t =>
    obtain ⟨r, rfl⟩ := hp
    simpa [noLeadingBlank] using hL

theorem collapse_noLeadingBlank {ls : List (List Char)}
    (h : noLeadingBlank ls = true) :
    noLeadingBlank (collapseBlankRuns false ls) = true := by
  cases ls with
  | nil => rfl
  | cons l ls =>
    have hl : isBlankLine l = false := by
      simpa [noLeadingBlank] using h
    rw [show collapseBlankRuns false (l :: ls) = l :: collapseBlankRuns false ls by
          simp [collapseBlankRuns, hl]]
    simp [noLeadingBlank, hl]

theorem getLast?_cons_of_ne_nil {α : Type} (a : α) {t : List α} (h : t ≠ []) :
    (a :: t).getLast? = t.getLast? := by
  rw [show a :: t = [a] ++ t from rfl, List.getLast?_append_of_ne_nil _ h]

theorem collapse_getLast {ls : List (List Char)} {x : List Char}
    (hx : ls.getLast? = some x) (hb : isBlankLine x = false) :
    ∀ b, (collapseBlankRuns b ls).getLast? = some x := by
  induction ls with
  | nil => simp at hx
  | cons l ls ih =>
    intro b
    cases ls with
    | nil =>
      have hlx : l = x := by simpa using hx
      subst hlx
      rw [show collapseBlankRuns b [l] = [l] by simp [collapseBlankRuns, hb]]
      rfl
    | cons m rest =>
      have hx2 : (m :: rest).getLast? = some x := by
        rwa [getLast?_cons_of_ne_nil l (by simp)] at hx
      have hne : ∀ b2, collapseBlankRuns b2 (m :: rest) ≠ [] := by
        intro b2 hcon
        have := ih hx2 b2
        rw [hcon] at this
        simp at this
      by_cases h : isBlankLine l = true
      · cases b with
        | true =>
          rw [show collapseBlankRuns true (l :: m :: rest)
                = collapseBlankRuns true (m :: rest) by simp [collapseBlankRuns, h]]
          exact ih hx2 true
        | false =>
          rw [show collapseBlankRuns false (l :: m :: rest)
                = [] :: collapseBlankRuns true (m :: rest) by simp [collapseBlankRuns, h],
            getLast?_cons_of_ne_nil _ (hne true)]
          exact ih hx2 true
      · rw [show collapseBlankRuns b (l :: m :: rest)
              = l :: collapseBlankRuns false (m :: rest) by simp [collapseBlankRuns, h],
          getLast?_cons_of_ne_nil _ (hne false)]
        exact ih hx2 false

theorem collapse_true_noLeadingBlank (ls : List (List Char)) :
    noLeadingBlank (collapseBlankRuns true ls) = true := by
  induction ls with
  | nil => rfl
  | cons l ls ih =>
    by_cases h : isBlankLine l = true
    · rw [show collapseBlankRuns true (l :: ls) = collapseBlankRuns true ls by
            simp [collapseBlankRuns, h]]
      exact ih
    · rw [show collapseBlankRuns true (l :: ls) = l :: collapseBlankRuns false ls by
            simp [collapseBlankRuns, h]]
      simp [noLeadingBlank, h]

theorem noDoubleBlank_cons_of {a : List Char} {t : List (List Char)}
    (h1 : ∀ c t2, t = c :: t2 → isBlankLine a = false ∨ isBlankLine c = false)
    (h2 : noDoubleBlank t = true) : noDoubleBlank (a :: t) = true := by
  cases t with
  | nil => rfl
  | cons c t2 =>
    have := h1 c t2 rfl
    simp only [noDoubleBlank, Bool.and_eq_true, Bool.not_eq_true']
    refine ⟨?_, h2⟩
    rcases this with h | h <;> simp [h]

theorem collapse_noDoubleBlank (ls : List (List Char)) :
    ∀ b, noDoubleBlank (collapseBlankRuns b ls) = true := by
  induction ls with
  | nil => intro b; rfl
  | cons l ls ih =>
    intro b
    by_cases h : isBlankLine l = true
    · cases b with
      | true =>
        rw [show collapseBlankRuns true (l :: ls) = collapseBlankRuns true ls by
              simp [collapseBlankRuns, h]]
        exact ih true
      | false =>
        rw [show collapseBlankRuns false (l :: ls) = [] :: collapseBlankRuns true ls by
              simp [collapseBlankRuns, h]]
        refine noDoubleBlank_cons_of ?_ (ih true)
        intro c t2 hc
        right
        have := collapse_true_noLeadingBlank ls
        rw [hc] at this
        simpa [noLeadingBlank] using this
    · rw [show collapseBlankRuns b (l :: ls) = l :: collapseBlankRuns false ls by
            simp [collapseBlankRuns, h]]
      refine noDoubleBlank_cons_of ?_ (ih false)
      intro c t2 _
      left
      simpa using h

theorem cleanLines_noLeadingBlank (ls : List (List Char)) :
    noLeadingBlank (cleanLines ls) = true := by
  unfold cleanLines
  apply collapse_noLeadingBlank
  have hpre : ((ls.dropWhile isBlankLine).reverse.dropWhile isBlankLine).reverse
      <+: ls.dropWhile isBlankLine := by
    have h1 := List.dropWhile_suffix (l := (ls.dropWhile isBlankLine).reverse) isBlankLine
    have h2 := List.reverse_prefix.mpr h1
    rwa [List.reverse_reverse] at h2
  exact noLeadingBlank_of_pre hpre (noLeadingBlank_dropWhile ls)

theorem cleanLines_noTrailingBlank (ls : List (List Char)) :
    noTrailingBlank (cleanLines ls) = true := by
  unfold cleanLines
  cases hD : (ls.dropWhile isBlankLine).reverse.dropWhile isBlankLine with
  | nil => rfl
  | cons x t =>
    have hx : isBlankLine x = false := by
      have := noLeadingBlank_dropWhile ((ls.dropWhile isBlankLine).reverse)
      rw [hD] at this
      simpa [noLeadingBlank] using this
    have hlast : (x :: t).reverse.getLast? = some x := by
      rw [List.getLast?_reverse]; rfl
    have := collapse_getLast hlast hx false
    rw [List.reverse_cons] at this
    simp [noTrailingBlank, this, hx]

theorem cleanLines_noDoubleBlank (ls : List (List Char)) :
    noDoubleBlank (cleanLines ls) = true :=
  collapse_noDoubleBlank _ false

theorem cleanLines_filter (ls : List (List Char)) :
    (cleanLines ls).filter (fun l => !(isBlankLine l))
      = ls.filter (fun l => !(isBlankLine l)) := by
  unfold cleanLines
  rw [collapse_filter]
  rw [show ((ls.dropWhile isBlankLine).reverse.dropWhile isBlankLine).reverse.filter
        (fun l => !(isBlankLine l))
      = (((ls.dropWhile isBlankLine).reverse.dropWhile isBlankLine).filter
        (fun l => !(isBlankLine l))).reverse from List.filter_reverse _ _]
  rw [filter_not_dropWhile, List.filter_reverse, List.reverse_reverse,
    filter_not_dropWhile]

theorem collapse_true_eq_dropWhile (ls : List (List Char)) :
    collapseBlankRuns true ls = collapseBlankRuns false (ls.dropWhile isBlankLine) := by
  induction ls with
  | nil => rfl
  | cons l ls ih =>
    by_cases hl : isBlankLine l = true
    · rw [show collapseBlankRuns true (l :: ls) = collapseBlankRuns true ls by
            simp [collapseBlankRuns, hl],
        List.dropWhile_cons_of_pos hl]
      exact ih
    · rw [show collapseBlankRuns true (l :: ls) = l :: collapseBlankRuns false ls by
            simp [collapseBlankRuns, hl],
        List.dropWhile_cons_of_neg hl]
      rw [show collapseBlankRuns false (l :: ls) = l :: collapseBlankRuns false ls by
            simp [collapseBlankRuns, hl]]

theorem specCollapse_nil : specCollapse [] = [] := by
  rw [specCollapse]

theorem specCollapse_cons_blank {l : List Char} {ls : List (List Char)}
    (h : isBlankLine l = true) :
    specCollapse (l :: ls) = [] :: specCollapse (ls.dropWhile isBlankLine) := by
  rw [specCollapse, if_pos h]

theorem specCollapse_cons_nonblank {l : List Char} {ls : List (List Char)}
    (h : isBlankLine l = false) :
    specCollapse (l :: ls) = l :: specCollapse ls := by
  rw [specCollapse, if_neg (by simp [h])]

theorem collapse_eq_specCollapse : ∀ (n : Nat) (ls : List (List Char)), ls.length ≤ n →
    collapseBlankRuns false ls = specCollapse ls := by
  intro n
  induction n with
  | zero =>
    intro ls h
    cases ls with
    | nil => rw [specCollapse_nil]; rfl
    | cons l ls' => simp at h
  | succ n ih =>
    intro ls h
    cases ls with
    | nil => rw [specCollapse_nil]; rfl
    | cons l ls' =>
      simp only [List.length_cons] at h
      by_cases hl : isBlankLine l = true
      · rw [show collapseBlankRuns false (l :: ls') = [] :: collapseBlankRuns true ls' by
              simp [collapseBlankRuns, hl],
          collapse_true_eq_dropWhile, specCollapse_cons_blank hl]
        congr 1
        apply ih
        have := (List.dropWhile_sublist (l := ls') isBlankLine).length_le
        omega
      · rw [show collapseBlankRuns false (l :: ls') = l :: collapseBlankRuns false ls' by
              simp [collapseBlankRuns, hl],
          specCollapse_cons_nonblank (by simpa using hl)]
        congr 1
        exact ih ls' (by omega)

theorem cleanLines_eq_specCollapse (ls : List (List Char)) :
    cleanLines ls
      = specCollapse (((ls.dropWhile isBlankLine).reverse.dropWhile isBlankLine).reverse) :=
  collapse_eq_specCollapse _ _ (Nat.le_refl _)

/-- C5: the stored HTML of every extracted block has the
`<pre><code class="language-{tag}">` shape with the tag defaulting to
`text`; the cleaned block interior has no leading blank line, no
trailing blank line and no two adjacent blank lines; the cleaning step
only removes blank lines (all non-blank lines survive in order); and,
after the leading/trailing trim, the collapsing loop agrees with the
spec-worded `specCollapse`, which replaces every maximal run of one or
more consecutive blank lines with exactly one blank line — so an
interior blank run always leaves exactly one blank line, never zero. -/
theorem C5_clean_code_block (code : List Char) (lang : Option (List Char)) :
    save_code_block lang code
      = "<pre><code class=\"language-".toList ++ lang.getD "text".toList ++ "\">".toList
        ++ escape_html (clean_code_block code) ++ "</code></pre>".toList ∧
    clean_code_block code = joinLines (cleanLines (pySplit '\n' code)) ∧
    noLeadingBlank (cleanLines (pySplit '\n' code)) = true ∧
    noTrailingBlank (cleanLines (pySplit '\n' code)) = true ∧
    noDoubleBlank (cleanLines (pySplit '\n' code)) = true ∧
    (cleanLines (pySplit '\n' code)).filter (fun l => !(isBlankLine l))
      = (pySplit '\n' code).filter (fun l => !(isBlankLine l)) ∧
    cleanLines (pySplit '\n' code)
      = specCollapse ((((pySplit '\n' code).dropWhile isBlankLine).reverse.dropWhile
          isBlankLine).reverse) :=
  ⟨rfl, rfl, cleanLines_noLeadingBlank _, cleanLines_noTrailingBlank _,
    cleanLines_noDoubleBlank _, cleanLines_filter _, cleanLines_eq_specCollapse _⟩

theorem build_tableOpt_eq (lines : List (List Char)) :
    build_tableOpt lines = some (build_table lines) := by
  unfold build_tableOpt build_table
  by_cases h : lines.length < 2
  · simp [h]
  · cases lines with
    | nil => simp at h
    | cons l0 rest =>
      simp only [List.head?_cons, List.drop_succ_cons, List.drop_one]
      split <;> rfl

theorem tablesGoOpt_eq (ls : List (List Char)) : ∀ acc,
    tablesGoOpt acc ls = some (tablesGo acc ls) := by
  induction ls with
  | nil =>
    intro acc
    by_cases h : acc.isEmpty <;>
      simp [tablesGoOpt, tablesGo, h, build_tableOpt_eq]
  | cons l ls ih =>
    intro acc
    by_cases h1 : isTableLine l = true
    · simp [tablesGoOpt, tablesGo, h1, ih]
    · by_cases h2 : acc.isEmpty <;>
        simp [tablesGoOpt, tablesGo, h1, h2, ih, build_tableOpt_eq]

theorem convert_tablesOpt_eq (html : List Char) :
    convert_tablesOpt html = some (convert_tables html) := by
  unfold convert_tablesOpt convert_tables
  rw [tablesGoOpt_eq]
  rfl

/-- C9: convert is total.  The only partial operation in its dataflow is
the `lines[0]` subscript of `_build_table`; the checked pipeline
`convertOpt`, in which that access returns `none` on failure, succeeds
on every input and agrees with `convert`.  Malformed input (an
unterminated fence, a malformed table separator) degrades to
best-effort output. -/
theorem C9_convert_total :
    (∀ s : List Char, convertOpt s = some (convert s)) ∧
    convertStr "```\nabc" = "<p>```</p>\n<p>abc</p>" ∧
    convertStr "| A | B |\n|bad|\n| 1 | 2 |"
      = "<div class=\"table-wrapper\"><table>\n<thead><tr>\n<th>A</th>\n<th>B</th>\n</tr></thead>\n<tbody>\n<tr>\n<td>1</td>\n<td>2</td>\n</tr>\n</tbody>\n</table></div>" := by
  refine ⟨fun s => ?_, by decide, by decide⟩
  simp only [convertOpt, convert, convert_tablesOpt_eq]

theorem subGo_nil (f : List Char → Option (List Char × Nat)) (n : Nat) :
    subGo f n [] = [] := by cases n <;> rfl

theorem subGo_succ (f : List Char → Option (List Char × Nat)) (k : Nat)
    (c : Char) (cs : List Char) : subGo f (k + 1) (c :: cs) = subGo f k cs := rfl

theorem subGo_zero_none (f : List Char → Option (List Char × Nat)) (c : Char)
    (cs : List Char) (h : f (c :: cs) = none) :
    subGo f 0 (c :: cs) = c :: subGo f 0 cs := by
  simp only [subGo, h]

theorem subGo_zero_some (f : List Char → Option (List Char × Nat)) (c : Char)
    (cs o : List Char) (l : Nat) (h : f (c :: cs) = some (o, l)) :
    subGo f 0 (c :: cs) = o ++ subGo f (l - 1) cs := by
  simp only [subGo, h]

theorem isPrefixOf_append_nl (p : List Char) : ∀ (x y : List Char), '\n' ∉ p →
    p.isPrefixOf (x ++ '\n' :: y) = p.isPrefixOf x := by
  induction p with
  | nil => intro x y _; cases x <;> rfl
  | cons a p' ih =>
    intro x y hnl
    have hnl' : '\n' ∉ p' := fun h => hnl (List.mem_cons_of_mem a h)
    cases x with
    | nil =>
      have ha : (a == '\n') = false := by
        simp only [beq_eq_false_iff_ne, ne_eq]
        intro h
        exact hnl (by simp [h])
      simp [List.isPrefixOf, ha]
    | cons b x' =>
      simp only [List.cons_append, List.isPrefixOf, List.append_eq]
      rw [ih x' y hnl']

theorem findEmphClose_append_nl (close : List Char) (hnl : '\n' ∉ close) :
    ∀ (x y : List Char), findEmphClose close (x ++ '\n' :: y) = findEmphClose close x := by
  intro x
  induction x with
  | nil => intro y; simp [findEmphClose]
  | cons c x' ih =>
    intro y
    by_cases hc : c = '\n'
    · subst hc; simp [findEmphClose]
    · simp only [List.cons_append, findEmphClose, hc, if_false, List.append_eq]
      rw [isPrefixOf_append_nl close x' y hnl, ih y]

theorem findEmphClose_le (close : List Char) :
    ∀ (cs content : List Char), findEmphClose close cs = some content →
      content.length + close.length ≤ cs.length := by
  intro cs
  induction cs with
  | nil => intro content h; simp [findEmphClose] at h
  | cons c cs' ih =>
    intro content h
    by_cases hc : c = '\n'
    · subst hc; simp [findEmphClose] at h
    · simp only [findEmphClose, hc, if_false] at h
      by_cases hp : close.isPrefixOf cs' = true
      · rw [if_pos hp] at h
        have hcl : close.length ≤ cs'.length :=
          (List.isPrefixOf_iff_prefix.mp hp).length_le
        have : content = [c] := by
          simpa using h.symm
        subst this
        simp only [List.length_cons, List.length_nil]
        omega
      · rw [if_neg hp] at h
        cases hr : findEmphClose close cs' with
        | none => rw [hr] at h; exact absurd h (by simp)
        | some content' =>
          rw [hr] at h
          have : content = c :: content' := by simpa using h.symm
          subst this
          have := ih content' hr
          simp only [List.length_cons]
          omega

theorem tryBold_append_nl (x y : List Char) :
    tryBold (x ++ '\n' :: y) = tryBold x := by
  unfold tryBold
  rw [isPrefixOf_append_nl _ x y (by decide)]
  by_cases hp : "**".toList.isPrefixOf x = true
  · rw [if_pos hp, if_pos hp]
    have hx : 2 ≤ x.length := by
      have := (List.isPrefixOf_iff_prefix.mp hp).length_le
      simpa using this
    rw [List.drop_append_of_le_length hx,
      findEmphClose_append_nl _ (by decide) (x.drop 2) y]
  · rw [if_neg hp, if_neg hp]

theorem tryItalic_append_nl (x y : List Char) :
    tryItalic (x ++ '\n' :: y) = tryItalic x := by
  unfold tryItalic
  rw [isPrefixOf_append_nl _ x y (by decide)]
  by_cases hp : "*".toList.isPrefixOf x = true
  · rw [if_pos hp, if_pos hp]
    have hx : 1 ≤ x.length := by
      have := (List.isPrefixOf_iff_prefix.mp hp).length_le
      simpa using this
    rw [List.drop_append_of_le_length hx,
      findEmphClose_append_nl _ (by decide) (x.drop 1) y]
  · rw [if_neg hp, if_neg hp]

theorem tryBold_le (s o : List Char) (l : Nat)
    (h : tryBold s = some (o, l)) : l ≤ s.length := by
  unfold tryBold at h
  by_cases hp : "**".toList.isPrefixOf s = true
  · rw [if_pos hp] at h
    cases hf : findEmphClose "**".toList (s.drop 2) with
    | none => rw [hf] at h; exact absurd h (by simp)
    | some content =>
      rw [hf] at h
      have h2 := findEmphClose_le _ _ _ hf
      have h3 : 2 ≤ s.length := by
        have := (List.isPrefixOf_iff_prefix.mp hp).length_le
        simpa using this
      rw [List.length_drop] at h2
      have hpair := Option.some.inj h
      have hl2 : content.length + 4 = l := congrArg Prod.snd hpair
      have hcl : ("**".toList).length = 2 := rfl
      rw [hcl] at h2
      omega
  · rw [if_neg hp] at h
    exact absurd h (by simp)

theorem tryItalic_le (s o : List Char) (l : Nat)
    (h : tryItalic s = some (o, l)) : l ≤ s.length := by
  unfold tryItalic at h
  by_cases hp : "*".toList.isPrefixOf s = true
  · rw [if_pos hp] at h
    cases hf : findEmphClose "*".toList (s.drop 1) with
    | none => rw [hf] at h; exact absurd h (by simp)
    | some content =>
      rw [hf] at h
      have h2 := findEmphClose_le _ _ _ hf
      have h3 : 1 ≤ s.length := by
        have := (List.isPrefixOf_iff_prefix.mp hp).length_le
        simpa using this
      rw [List.length_drop] at h2
      have hpair := Option.some.inj h
      have hl2 : content.length + 2 = l := congrArg Prod.snd hpair
      have hcl : ("*".toList).length = 1 := rfl
      rw [hcl] at h2
      omega
  · rw [if_neg hp] at h
    exact absurd h (by simp)

theorem subGo_split (f : List Char → Option (List Char × Nat))
    (hshift : ∀ x y, f (x ++ '\n' :: y) = f x)
    (hle : ∀ s o l, f s = some (o, l) → l ≤ s.length)
    (hnil : f [] = none) :
    ∀ (a : List Char) (n : Nat) (b : List Char), n ≤ a.length →
      subGo f n (a ++ '\n' :: b) = subGo f n a ++ '\n' :: subGo f 0 b := by
  intro a
  induction a with
  | nil =>
    intro n b hn
    have hn0 : n = 0 := Nat.le_zero.mp hn
    subst hn0
    have hnl : f ('\n' :: b) = none := by
      have h1 := hshift [] b
      rw [List.nil_append] at h1
      rw [h1, hnil]
    rw [List.nil_append, subGo_nil, List.nil_append,
      subGo_zero_none f '\n' b hnl]
  | cons c a' ih =>
    intro n b hn
    cases n with
    | succ k =>
      rw [List.cons_append, subGo_succ, subGo_succ]
      exact ih k b (by simpa using hn)
    | zero =>
      have hf : f (c :: (a' ++ '\n' :: b)) = f (c :: a') := by
        have := hshift (c :: a') b
        rwa [List.cons_append] at this
      cases hf2 : f (c :: a') with
      | none =>
        rw [List.cons_append, subGo_zero_none f c _ (hf.trans hf2),
          subGo_zero_none f c a' hf2, List.cons_append]
        rw [ih 0 b (Nat.zero_le _)]
      | some ol =>
        obtain ⟨o, l⟩ := ol
        have hl : l ≤ a'.length + 1 := by
          have := hle (c :: a') o l hf2
          simpa using this
        rw [List.cons_append, subGo_zero_some f c _ o l (hf.trans hf2),
          subGo_zero_some f c a' o l hf2]
        rw [ih (l - 1) b (by omega), List.append_assoc]

theorem infix_append_cases {q u v : List Char} (h : q <:+: u ++ v) :
    q <:+: u ∨ q <:+: v ∨
      ∃ q₁ q₂, q = q₁ ++ q₂ ∧ q₁ ≠ [] ∧ q₂ ≠ [] ∧ q₁ <:+ u ∧ q₂ <+: v := by
  induction u with
  | nil =>
    right; left
    simpa using h
  | cons a u' ih =>
    rw [List.cons_append] at h
    rcases List.infix_cons_iff.mp h with hpre | hinf
    · rw [show a :: (u' ++ v) = (a :: u') ++ v from rfl] at hpre
      rcases List.prefix_or_prefix_of_prefix hpre (List.prefix_append (a :: u') v) with h1 | h2
      · left; exact h1.isInfix
      · obtain ⟨q₂, rfl⟩ := h2
        by_cases hq2 : q₂ = []
        · subst hq2
          left
          rw [List.append_nil]
        · right; right
          refine ⟨a :: u', q₂, rfl, by simp, hq2, List.suffix_refl _, ?_⟩
          exact (List.prefix_append_right_inj (a :: u')).mp hpre
    · rcases ih hinf with h1 | h2 | ⟨q₁, q₂, heq, hq1, hq2, hsuf, hpre2⟩
      · left; exact List.infix_cons h1
      · right; left; exact h2
      · right; right
        exact ⟨q₁, q₂, heq, hq1, hq2, hsuf.trans (List.suffix_cons a u'), hpre2⟩

theorem not_infix_append_u_last {q u v : List Char} (hq : q ≠ [])
    (hu : ¬ q <:+: u) (hv : ¬ q <:+: v)
    (hlast : ∀ c, u.getLast? = some c → c ∉ q) :
    ¬ q <:+: u ++ v := by
  intro h
  rcases infix_append_cases h with h1 | h2 | ⟨q₁, q₂, heq, hq1, hq2, hsuf, hpre⟩
  · exact hu h1
  · exact hv h2
  · have hune : u ≠ [] := by
      intro h0
      subst h0
      exact hq1 (List.suffix_nil.mp hsuf)
    cases hu' : u.getLast? with
    | none => exact hune (List.getLast?_eq_none_iff.mp hu')
    | some lc =>
      have hq1last : q₁.getLast? = some lc := by
        obtain ⟨w, rfl⟩ := hsuf
        rwa [List.getLast?_append_of_ne_nil _ hq1] at hu'
      have hmem : lc ∈ q₁ := List.mem_of_mem_getLast? hq1last
      exact hlast lc hu' (heq ▸ List.mem_append_left q₂ hmem)

theorem not_infix_append_v_head {q u v : List Char} (hq : q ≠ [])
    (hu : ¬ q <:+: u) (hv : ¬ q <:+: v)
    (hhead : ∀ c, v.head? = some c → c ∉ q) :
    ¬ q <:+: u ++ v := by
  intro h
  rcases infix_append_cases h with h1 | h2 | ⟨q₁, q₂, heq, hq1, hq2, hsuf, hpre⟩
  · exact hu h1
  · exact hv h2
  · have hvne : v ≠ [] := by
      intro h0
      subst h0
      exact hq2 (List.prefix_nil.mp hpre)
    cases hv' : v.head? with
    | none => exact hvne (List.head?_eq_none_iff.mp hv')
    | some hc =>
      have hq2head : q₂.head? = some hc := by
        obtain ⟨w, rfl⟩ := hpre
        rw [List.head?_append] at hv'
        cases hh : q₂.head? with
        | none => exact absurd (List.head?_eq_none_iff.mp hh) hq2
        | some x =>
          rw [hh] at hv'
          simp at hv'
          rw [hv']
      have hmem : hc ∈ q₂ := by
        cases q₂ with
        | nil => simp at hq2head
        | cons x t =>
          have : x = hc := by simpa using hq2head
          simp [this]
      exact hhead hc hv' (heq ▸ List.mem_append_right q₁ hmem)

theorem not_infix_cons_head {q : List Char} {a : Char} {t : List Char} (hq : q ≠ [])
    (ha : a ∉ q) (ht : ¬ q <:+: t) : ¬ q <:+: a :: t := by
  intro h
  rcases List.infix_cons_iff.mp h with hpre | hinf
  · cases q with
    | nil => exact hq rfl
    | cons q0 q' =>
      have := (List.cons_prefix_iff.mp hpre).1
      exact ha (by simp [this])
  · exact ht hinf

theorem joinLines_split_occ {p : List Char} (hp : p ≠ []) (hnl : '\n' ∉ p) :
    ∀ L : List (List Char), p <:+: joinLines L → ∃ l ∈ L, p <:+: l := by
  intro L
  induction L with
  | nil =>
    intro h
    exact absurd (List.eq_nil_of_infix_nil h) hp
  | cons l ls ih =>
    intro h
    cases ls with
    | nil => exact ⟨l, by simp, by simpa [joinLines] using h⟩
    | cons l2 t =>
      rw [show joinLines (l :: l2 :: t) = l ++ '\n' :: joinLines (l2 :: t) from rfl] at h
      rcases infix_append_cases h with h1 | h2 | ⟨q₁, q₂, heq, hq1, hq2, hsuf, hpre⟩
      · exact ⟨l, by simp, h1⟩
      · have h3 : p <:+: joinLines (l2 :: t) := by
          rcases List.infix_cons_iff.mp h2 with hpre | hinf
          · cases p with
            | nil => exact absurd rfl hp
            | cons p0 p' =>
              have := (List.cons_prefix_iff.mp hpre).1
              exact absurd (by simp [this]) hnl
          · exact hinf
        obtain ⟨l', hl', hinf'⟩ := ih h3
        exact ⟨l', by simp [hl'], hinf'⟩
      · exfalso
        cases q₂ with
        | nil => exact hq2 rfl
        | cons x t2 =>
          have : x = '\n' := (List.cons_prefix_iff.mp hpre).1
          exact hnl (heq ▸ List.mem_append_right q₁ (by simp [this]))

theorem matchPat_some {pat rep s : List Char} {x : List Char × Nat}
    (h : matchPat pat rep s = some x) :
    x = (rep, pat.length) ∧ pat.isPrefixOf s = true ∧ pat ≠ [] := by
  unfold matchPat at h
  split at h
  · rename_i hcond
    exact ⟨(Option.some.inj h).symm, hcond.1, hcond.2⟩
  · exact absurd h (by simp)

theorem subGo_replace_prefix_track (pat rep : List Char) (hrep : rep ≠ []) :
    ∀ (s : List Char) (n : Nat) (u : List Char),
      (∀ c, rep.head? = some c → c ∉ u) →
      u <+: subGo (matchPat pat rep) n s → u <+: s.drop n := by
  intro s
  induction s with
  | nil =>
    intro n u _ h
    rw [subGo_nil] at h
    rw [List.prefix_nil.mp h]
    exact List.nil_prefix
  | cons c cs ih =>
    intro n u hu h
    cases n with
    | succ k =>
      rw [subGo_succ] at h
      rw [List.drop_succ_cons]
      exact ih k u hu h
    | zero =>
      rw [List.drop_zero]
      cases hm : matchPat pat rep (c :: cs) with
      | some x =>
        obtain ⟨hx, -, -⟩ := matchPat_some hm
        subst hx
        rw [subGo_zero_some _ c cs rep pat.length hm] at h
        cases u with
        | nil => exact List.nil_prefix
        | cons u0 u' =>
          exfalso
          cases hr : rep with
          | nil => exact hrep hr
          | cons r0 rt =>
            rw [hr, List.cons_append] at h
            have he := (List.cons_prefix_iff.mp h).1
            exact hu r0 (by rw [hr]; rfl) (he ▸ List.mem_cons_self u0 u')
      | none =>
        rw [subGo_zero_none _ c cs hm] at h
        cases u with
        | nil => exact List.nil_prefix
        | cons u0 u' =>
          obtain ⟨he, hp⟩ := List.cons_prefix_iff.mp h
          have hu' : ∀ c2, rep.head? = some c2 → c2 ∉ u' := by
            intro c2 hc2 hmem
            exact hu c2 hc2 (List.mem_cons_of_mem u0 hmem)
          have h2 := ih 0 u' hu' hp
          rw [List.drop_zero] at h2
          exact List.cons_prefix_iff.mpr ⟨he, h2⟩

theorem subGo_replace_self (pat rep : List Char) (hpat : pat ≠ [])
    (hrep : rep ≠ []) (hnotinrep : ¬ pat <:+: rep)
    (hh : ∀ c, rep.head? = some c → c ∉ pat)
    (hl : ∀ c, rep.getLast? = some c → c ∉ pat) :
    ∀ (s : List Char) (n : Nat), ¬ pat <:+: subGo (matchPat pat rep) n s := by
  intro s
  induction s with
  | nil =>
    intro n
    rw [subGo_nil]
    intro h
    exact hpat (List.eq_nil_of_infix_nil h)
  | cons c cs ih =>
    intro n
    cases n with
    | succ k =>
      rw [subGo_succ]
      exact ih k
    | zero =>
      cases hm : matchPat pat rep (c :: cs) with
      | some x =>
        obtain ⟨hx, -, -⟩ := matchPat_some hm
        subst hx
        rw [subGo_zero_some _ c cs rep pat.length hm]
        exact not_infix_append_u_last hpat hnotinrep (ih (pat.length - 1)) hl
      | none =>
        rw [subGo_zero_none _ c cs hm]
        intro h
        rcases List.infix_cons_iff.mp h with hpre | hinf
        · cases hp : pat with
          | nil => exact hpat hp
          | cons p0 p' =>
            rw [hp] at hpre
            obtain ⟨he, hp'⟩ := List.cons_prefix_iff.mp hpre
            rw [← hp] at hp'
            have hp'cs := subGo_replace_prefix_track pat rep hrep cs 0 p'
              (fun c2 hc2 hmem => hh c2 hc2 (by rw [hp]; exact List.mem_cons_of_mem p0 hmem))
              hp'
            rw [List.drop_zero] at hp'cs
            have hpatpre : pat.isPrefixOf (c :: cs) = true := by
              rw [hp]
              exact List.isPrefixOf_iff_prefix.mpr (List.cons_prefix_iff.mpr ⟨he, hp'cs⟩)
            unfold matchPat at hm
            rw [if_pos ⟨hpatpre, hpat⟩] at hm
            simp at hm
        · exact ih 0 hinf

theorem subGo_replace_preserve (pat rep q : List Char) (hq : q ≠ [])
    (hrep : rep ≠ []) (hqrep : ¬ q <:+: rep)
    (hh : ∀ c, rep.head? = some c → c ∉ q)
    (hl : ∀ c, rep.getLast? = some c → c ∉ q) :
    ∀ (s : List Char) (n : Nat), ¬ q <:+: s → ¬ q <:+: subGo (matchPat pat rep) n s := by
  intro s
  induction s with
  | nil =>
    intro n _
    rw [subGo_nil]
    intro h
    exact hq (List.eq_nil_of_infix_nil h)
  | cons c cs ih =>
    intro n hs
    have hscs : ¬ q <:+: cs := fun h2 => hs (List.infix_cons h2)
    cases n with
    | succ k =>
      rw [subGo_succ]
      exact ih k hscs
    | zero =>
      cases hm : matchPat pat rep (c :: cs) with
      | some x =>
        obtain ⟨hx, -, -⟩ := matchPat_some hm
        subst hx
        rw [subGo_zero_some _ c cs rep pat.length hm]
        exact not_infix_append_u_last hq hqrep (ih (pat.length - 1) hscs) hl
      | none =>
        rw [subGo_zero_none _ c cs hm]
        intro h
        rcases List.infix_cons_iff.mp h with hpre | hinf
        · cases hqe : q with
          | nil => exact hq hqe
          | cons q0 q' =>
            rw [hqe] at hpre
            obtain ⟨he, hp'⟩ := List.cons_prefix_iff.mp hpre
            have hq'cs := subGo_replace_prefix_track pat rep hrep cs 0 q'
              (fun c2 hc2 hmem => hh c2 hc2 (by rw [hqe]; exact List.mem_cons_of_mem q0 hmem))
              hp'
            rw [List.drop_zero] at hq'cs
            apply hs
            rw [hqe]
            exact (List.cons_prefix_iff.mpr ⟨he, hq'cs⟩).isInfix
        · exact ih 0 hscs hinf

theorem escape_html_sentinel_free {x : List Char} (hx : ¬ sentinel <:+: x) :
    ¬ sentinel <:+: escape_html x := by
  have h1 : ¬ sentinel <:+: replaceAll ['&'] "&amp;".toList x :=
    subGo_replace_preserve ['&'] "&amp;".toList sentinel (by decide) (by decide) (by decide)
      (by intro c hc; have h2 : '&' = c := (by simpa using hc); subst h2; decide)
      (by intro c hc; have h2 : ';' = c := (by simpa using hc); subst h2; decide)
      x 0 hx
  have h2 : ¬ sentinel <:+: replaceAll ['<'] "&lt;".toList
      (replaceAll ['&'] "&amp;".toList x) :=
    subGo_replace_preserve ['<'] "&lt;".toList sentinel (by decide) (by decide) (by decide)
      (by intro c hc; have h2 : '&' = c := (by simpa using hc); subst h2; decide)
      (by intro c hc; have h2 : ';' = c := (by simpa using hc); subst h2; decide)
      _ 0 h1
  exact subGo_replace_preserve ['>'] "&gt;".toList sentinel (by decide) (by decide) (by decide)
    (by intro c hc; have h2 : '&' = c := (by simpa using hc); subst h2; decide)
    (by intro c hc; have h2 : ';' = c := (by simpa using hc); subst h2; decide)
    _ 0 h2

theorem splitAtFirst_eq (pat : List Char) : ∀ (s a b : List Char),
    splitAtFirst pat s = some (a, b) → s = a ++ pat ++ b := by
  intro s
  induction s with
  | nil => intro a b h; simp [splitAtFirst] at h
  | cons c cs ih =>
    intro a b h
    by_cases hp : pat.isPrefixOf (c :: cs) = true
    · rw [show splitAtFirst pat (c :: cs) = some ([], (c :: cs).drop pat.length) by
          simp [splitAtFirst, hp]] at h
      obtain ⟨t, ht⟩ := List.isPrefixOf_iff_prefix.mp hp
      have hb : (c :: cs).drop pat.length = t := by
        rw [← ht, List.drop_left]
      obtain ⟨ha, hbb⟩ : ([] : List Char) = a ∧ (c :: cs).drop pat.length = b := by
        have := Option.some.inj h
        exact ⟨congrArg Prod.fst this, congrArg Prod.snd this⟩
      rw [← ha, ← hbb, hb, List.nil_append, ht]
    · rw [show splitAtFirst pat (c :: cs)
          = (match splitAtFirst pat cs with
             | some (a, b) => some (c :: a, b)
             | none => none) by simp [splitAtFirst, hp]] at h
      cases hr : splitAtFirst pat cs with
      | none => rw [hr] at h; simp at h
      | some ab =>
        obtain ⟨a', b'⟩ := ab
        rw [hr] at h
        obtain ⟨ha, hbb⟩ : c :: a' = a ∧ b' = b := by
          have := Option.some.inj h
          exact ⟨congrArg Prod.fst this, congrArg Prod.snd this⟩
        rw [← ha, ← hbb]
        rw [show (c :: a') ++ pat ++ b' = c :: (a' ++ pat ++ b') from rfl,
          ← ih a' b' hr]

theorem pySplit_head_pre (sep : Char) : ∀ (s h : List Char) (t : List (List Char)),
    pySplit sep s = h :: t → h <+: s := by
  intro s
  induction s with
  | nil =>
    intro h t he
    simp [pySplit] at he
    rw [← he.1]
  | cons c cs ih =>
    intro h t he
    cases hs : pySplit sep cs with
    | nil => exact absurd hs (pySplit_ne_nil sep cs)
    | cons h' t' =>
      by_cases hc : c = sep
      · subst hc
        rw [pySplit_cons_sep] at he
        have : h = [] := by
          have := congrArg List.head? he
          simpa using this
        rw [this]
        exact List.nil_prefix
      · rw [show pySplit sep (c :: cs) = (c :: h') :: t' by simp [pySplit, hs, hc]] at he
        have hh : h = c :: h' := by
          have := congrArg List.head? he
          simpa using this.symm
        rw [hh]
        exact List.cons_prefix_iff.mpr ⟨rfl, ih h' t' hs⟩

theorem pySplit_mem_part (sep : Char) : ∀ (s l : List Char),
    l ∈ pySplit sep s → l <:+: s := by
  intro s
  induction s with
  | nil =>
    intro l hl
    simp [pySplit] at hl
    rw [hl]
  | cons c cs ih =>
    intro l hl
    cases hs : pySplit sep cs with
    | nil => exact absurd hs (pySplit_ne_nil sep cs)
    | cons h' t' =>
      by_cases hc : c = sep
      · subst hc
        rw [pySplit_cons_sep] at hl
        rcases List.mem_cons.mp hl with rfl | hmem
        · exact List.nil_infix
        · exact List.infix_cons (ih l hmem)
      · rw [show pySplit sep (c :: cs) = (c :: h') :: t' by simp [pySplit, hs, hc]] at hl
        rcases List.mem_cons.mp hl with rfl | hmem
        · exact (List.cons_prefix_iff.mpr ⟨rfl, pySplit_head_pre sep cs h' t' hs⟩).isInfix
        · exact List.infix_cons (ih l (by rw [hs]; exact List.mem_cons_of_mem h' hmem))

theorem collapse_mem {l : List Char} : ∀ (b : Bool) (L : List (List Char)),
    l ∈ collapseBlankRuns b L → l = [] ∨ l ∈ L := by
  intro b L
  induction L generalizing b with
  | nil => intro h; simp [collapseBlankRuns] at h
  | cons x t ih =>
    intro h
    by_cases hx : isBlankLine x = true
    · cases b with
      | true =>
        rw [show collapseBlankRuns true (x :: t) = collapseBlankRuns true t by
              simp [collapseBlankRuns, hx]] at h
        rcases ih true h with h0 | h1
        · exact Or.inl h0
        · exact Or.inr (List.mem_cons_of_mem x h1)
      | false =>
        rw [show collapseBlankRuns false (x :: t) = [] :: collapseBlankRuns true t by
              simp [collapseBlankRuns, hx]] at h
        rcases List.mem_cons.mp h with rfl | hmem
        · exact Or.inl rfl
        · rcases ih true hmem with h0 | h1
          · exact Or.inl h0
          · exact Or.inr (List.mem_cons_of_mem x h1)
    · rw [show collapseBlankRuns b (x :: t) = x :: collapseBlankRuns false t by
            simp [collapseBlankRuns, hx]] at h
      rcases List.mem_cons.mp h with rfl | hmem
      · exact Or.inr (List.mem_cons_self _ _)
      · rcases ih false hmem with h0 | h1
        · exact Or.inl h0
        · exact Or.inr (List.mem_cons_of_mem x h1)

theorem cleanLines_mem {l : List Char} {ls : List (List Char)}
    (h : l ∈ cleanLines ls) : l = [] ∨ l ∈ ls := by
  rcases collapse_mem false _ h with h0 | h1
  · exact Or.inl h0
  · right
    rw [List.mem_reverse] at h1
    have h2 := (List.dropWhile_sublist isBlankLine).subset h1
    rw [List.mem_reverse] at h2
    exact (List.dropWhile_sublist isBlankLine).subset h2

theorem tryFence_some {s : List Char} {lang : Option (List Char)}
    {content : List Char} {len : Nat}
    (h : tryFence s = some (lang, content, len)) :
    content <:+: s ∧ (lang = none ∨ ∃ w, lang = some w ∧ w <:+: s) := by
  unfold tryFence at h
  by_cases hp : "```".toList.isPrefixOf s = true
  · rw [if_pos hp] at h
    dsimp only at h
    have hAT : s.drop 3 <:+ s := List.drop_suffix 3 s
    have hwpre : (s.drop 3).takeWhile isWordChar <+: s.drop 3 :=
      List.takeWhile_prefix isWordChar
    cases hd : (s.drop 3).drop ((s.drop 3).takeWhile isWordChar).length with
    | nil => rw [hd] at h; simp at h
    | cons c rest =>
      rw [hd] at h
      dsimp only at h
      by_cases hc : c = '\n'
      · rw [if_pos hc] at h
        cases hsp : splitAtFirst "```".toList rest with
        | none => rw [hsp] at h; simp at h
        | some ab =>
          obtain ⟨content', b'⟩ := ab
          rw [hsp] at h
          have hrest : rest <:+: s := by
            have h1 : rest <:+ c :: rest := List.suffix_cons c rest
            have h2 : (c :: rest) <:+ s.drop 3 := by
              rw [← hd]
              exact List.drop_suffix _ _
            exact ((h1.trans h2).trans hAT).isInfix
          have hcontent' : content' <:+: s := by
            have := splitAtFirst_eq _ _ _ _ hsp
            have hpre : content' <+: rest := by
              rw [this, List.append_assoc]
              exact List.prefix_append content' _
            exact hpre.isInfix.trans hrest
          have hcc : content' = content ∧ (if ((s.drop 3).takeWhile isWordChar).isEmpty
              then none else some ((s.drop 3).takeWhile isWordChar)) = lang := by
            have := Option.some.inj h
            refine ⟨?_, congrArg Prod.fst this⟩
            have h2 := congrArg Prod.snd this
            exact congrArg Prod.fst h2
          constructor
          · rw [← hcc.1]; exact hcontent'
          · by_cases hw : ((s.drop 3).takeWhile isWordChar).isEmpty = true
            · left
              rw [← hcc.2, if_pos hw]
            · right
              refine ⟨(s.drop 3).takeWhile isWordChar, ?_, hwpre.isInfix.trans hAT.isInfix⟩
              rw [← hcc.2, if_neg hw]
      · rw [if_neg hc] at h
        simp at h
  · rw [if_neg hp] at h
    simp at h

theorem save_code_block_head (lang : Option (List Char)) (code : List Char) :
    (save_code_block lang code).head? = some '<' := rfl

theorem save_code_block_last (lang : Option (List Char)) (code : List Char) :
    (save_code_block lang code).getLast? = some '>' := by
  unfold save_code_block
  rw [List.getLast?_append_of_ne_nil _ (by
    intro h0
    have := congrArg List.length h0
    simp [List.length_append] at this)]
  rfl

theorem save_code_block_sentinel_free {lang : Option (List Char)} {code : List Char}
    (hlang : ∀ w, lang = some w → ¬ sentinel <:+: w)
    (hcode : ¬ sentinel <:+: code) :
    ¬ sentinel <:+: save_code_block lang code := by
  have htag : ¬ sentinel <:+: lang.getD "text".toList := by
    cases lang with
    | none => decide
    | some w => simpa using hlang w rfl
  have hclean : ¬ sentinel <:+: clean_code_block code := by
    intro h
    obtain ⟨l, hlmem, hlinf⟩ := joinLines_split_occ (by decide) (by decide) _ h
    rcases cleanLines_mem hlmem with rfl | hmem
    · exact (by decide : sentinel ≠ []) (List.eq_nil_of_infix_nil hlinf)
    · exact hcode (hlinf.trans (pySplit_mem_part '\n' code l hmem))
  have hesc := escape_html_sentinel_free hclean
  unfold save_code_block
  refine not_infix_append_v_head (by decide) ?_ (by decide) ?_
  · refine not_infix_append_u_last (by decide) ?_ hesc ?_
    · refine not_infix_append_v_head (by decide) ?_ (by decide) ?_
      · refine not_infix_append_u_last (by decide) (by decide) htag ?_
        intro c hc
        have hA : ("<pre><code class=\"language-".toList).getLast? = some '-' := rfl
        rw [hA] at hc
        have h2 : '-' = c := by simpa using hc
        subst h2
        decide
      · intro c hc
        have h2 : '"' = c := by simpa using hc
        subst h2
        decide
    · intro c hc
      rw [List.getLast?_append_of_ne_nil _ (by decide)] at hc
      have h2 : '>' = c := by simpa using hc
      subst h2
      decide
  · intro c hc
    have h2 : '<' = c := by simpa using hc
    subst h2
    decide

theorem extractGo_nil (k : Nat) (bs : List (List Char)) :
    extractGo k bs [] = ([], bs) := by
  cases k <;> rfl

theorem extractGo_succ (k : Nat) (bs : List (List Char)) (c : Char) (cs : List Char) :
    extractGo (k + 1) bs (c :: cs) = extractGo k bs cs := rfl

theorem extractGo_zero_some {c : Char} {cs : List Char} {lang : Option (List Char)}
    {content : List Char} {len : Nat} (bs : List (List Char))
    (h : tryFence (c :: cs) = some (lang, content, len)) :
    extractGo 0 bs (c :: cs)
      = (placeholder bs.length
          ++ (extractGo (len - 1) (bs ++ [save_code_block lang content]) cs).1,
         (extractGo (len - 1) (bs ++ [save_code_block lang content]) cs).2) := by
  simp only [extractGo, h]

theorem extractGo_zero_none {c : Char} {cs : List Char} (bs : List (List Char))
    (h : tryFence (c :: cs) = none) :
    extractGo 0 bs (c :: cs)
      = (c :: (extractGo 0 bs cs).1, (extractGo 0 bs cs).2) := by
  simp only [extractGo, h]

theorem extractGo_blocks_good : ∀ (s : List Char) (k : Nat) (bs : List (List Char)),
    ¬ sentinel <:+: s →
    (∀ b ∈ bs, b.head? = some '<' ∧ b.getLast? = some '>' ∧ ¬ sentinel <:+: b) →
    ∀ b ∈ (extractGo k bs s).2,
      b.head? = some '<' ∧ b.getLast? = some '>' ∧ ¬ sentinel <:+: b := by
  intro s
  induction s with
  | nil =>
    intro k bs _ hbs b hb
    rw [extractGo_nil] at hb
    exact hbs b hb
  | cons c cs ih =>
    intro k bs hs hbs
    have hscs : ¬ sentinel <:+: cs := fun h => hs (List.infix_cons h)
    cases k with
    | succ k' =>
      rw [extractGo_succ]
      exact ih k' bs hscs hbs
    | zero =>
      cases hm : tryFence (c :: cs) with
      | none =>
        rw [extractGo_zero_none bs hm]
        exact ih 0 bs hscs hbs
      | some x =>
        obtain ⟨lang, content, len⟩ := x
        rw [extractGo_zero_some bs hm]
        dsimp only
        apply ih (len - 1) _ hscs
        intro b hb
        rcases List.mem_append.mp hb with hb1 | hb2
        · exact hbs b hb1
        · have hbeq : b = save_code_block lang content := by simpa using hb2
          subst hbeq
          obtain ⟨hcont, hlang⟩ := tryFence_some hm
          refine ⟨save_code_block_head _ _, save_code_block_last _ _, ?_⟩
          apply save_code_block_sentinel_free
          · intro w hw
            rcases hlang with h0 | ⟨w', hw', hwinf⟩
            · rw [h0] at hw
              simp at hw
            · rw [hw'] at hw
              have hww : w' = w := by simpa using hw
              subst hww
              intro hcon
              exact hs (hcon.trans hwinf)
          · intro hcon
            exact hs (hcon.trans hcont)

theorem digitChar_isDigit {m : Nat} (hm : m < 10) :
    (Char.ofNat (48 + m)).isDigit = true := by
  interval_cases m <;> decide

theorem natDigitsAux_digits : ∀ (fuel n : Nat) (acc : List Char),
    (∀ c ∈ acc, c.isDigit = true) → ∀ c ∈ natDigitsAux fuel n acc, c.isDigit = true := by
  intro fuel
  induction fuel with
  | zero => intro n acc hacc c hc; exact hacc c hc
  | succ fuel ih =>
    intro n acc hacc c hc
    rw [show natDigitsAux (fuel + 1) n acc
        = if n < 10 then Char.ofNat (48 + n % 10) :: acc
          else natDigitsAux fuel (n / 10) (Char.ofNat (48 + n % 10) :: acc) from rfl] at hc
    have hd : (Char.ofNat (48 + n % 10)).isDigit = true :=
      digitChar_isDigit (Nat.mod_lt n (by omega))
    by_cases hn : n < 10
    · rw [if_pos hn] at hc
      rcases List.mem_cons.mp hc with rfl | hmem
      · exact hd
      · exact hacc c hmem
    · rw [if_neg hn] at hc
      refine ih (n / 10) _ ?_ c hc
      intro c2 hc2
      rcases List.mem_cons.mp hc2 with rfl | hmem
      · exact hd
      · exact hacc c2 hmem

theorem natDigits_digits (n : Nat) : ∀ c ∈ natDigits n, c.isDigit = true :=
  natDigitsAux_digits (n + 1) n [] (by simp)

theorem placeholder_chars {i : Nat} {c : Char} (hc : c ∈ placeholder i) :
    c ∈ "__CODE_BLOCK_".toList ∨ c.isDigit = true := by
  unfold placeholder at hc
  rcases List.mem_append.mp hc with h1 | h2
  · rcases List.mem_append.mp h1 with ha | hb
    · exact Or.inl ha
    · exact Or.inr (natDigits_digits i c hb)
  · left
    have : c = '_' := by
      rcases List.mem_cons.mp h2 with rfl | h3
      · rfl
      · rcases List.mem_cons.mp h3 with rfl | h4
        · rfl
        · simp at h4
    rw [this]
    decide

theorem placeholder_no_lt (i : Nat) : '<' ∉ placeholder i := by
  intro h
  rcases placeholder_chars h with h1 | h2
  · revert h1; decide
  · exact absurd h2 (by decide)

theorem placeholder_no_gt (i : Nat) : '>' ∉ placeholder i := by
  intro h
  rcases placeholder_chars h with h1 | h2
  · revert h1; decide
  · exact absurd h2 (by decide)

theorem placeholder_ne_nil (i : Nat) : placeholder i ≠ [] := by
  unfold placeholder
  intro h
  have := congrArg List.length h
  simp [List.length_append] at this

theorem sentinel_prefix_placeholder (i : Nat) : sentinel <+: placeholder i := by
  unfold placeholder sentinel
  exact (List.prefix_append _ _).trans (List.prefix_append _ _)

theorem restoreFrom_preserve : ∀ (bs : List (List Char)) (i0 : Nat) (h q : List Char),
    q ≠ [] → '<' ∉ q → '>' ∉ q → sentinel <+: q →
    (∀ b ∈ bs, b.head? = some '<' ∧ b.getLast? = some '>' ∧ ¬ sentinel <:+: b) →
    ¬ q <:+: h → ¬ q <:+: restoreFrom i0 bs h := by
  intro bs
  induction bs with
  | nil => intro i0 h q _ _ _ _ _ hh; exact hh
  | cons b bs' ih =>
    intro i0 h q hq hlt hgt hsq hgood hh
    obtain ⟨hbh, hbl, hbs⟩ := hgood b (List.mem_cons_self _ _)
    have hbne : b ≠ [] := by
      intro h0
      rw [h0] at hbh
      simp at hbh
    show ¬ q <:+: restoreFrom (i0 + 1) bs' (replaceAll (placeholder i0) b h)
    apply ih (i0 + 1) _ q hq hlt hgt hsq
      (fun b2 hb2 => hgood b2 (List.mem_cons_of_mem b hb2))
    exact subGo_replace_preserve (placeholder i0) b q hq hbne
      (fun hcon => hbs (hsq.isInfix.trans hcon))
      (by
        intro c2 hc2 hmem
        rw [hbh] at hc2
        have h2 : '<' = c2 := by simpa using hc2
        exact hlt (h2 ▸ hmem))
      (by
        intro c2 hc2 hmem
        rw [hbl] at hc2
        have h2 : '>' = c2 := by simpa using hc2
        exact hgt (h2 ▸ hmem))
      h 0 hh

theorem restoreFrom_no_placeholder : ∀ (bs : List (List Char)) (i0 : Nat) (h : List Char),
    (∀ b ∈ bs, b.head? = some '<' ∧ b.getLast? = some '>' ∧ ¬ sentinel <:+: b) →
    ∀ j, i0 ≤ j → j < i0 + bs.length →
      ¬ placeholder j <:+: restoreFrom i0 bs h := by
  intro bs
  induction bs with
  | nil =>
    intro i0 h _ j h1 h2
    simp at h2
    omega
  | cons b bs' ih =>
    intro i0 h hgood j hj1 hj2
    obtain ⟨hbh, hbl, hbs⟩ := hgood b (List.mem_cons_self _ _)
    have hbne : b ≠ [] := by
      intro h0
      rw [h0] at hbh
      simp at hbh
    show ¬ placeholder j <:+: restoreFrom (i0 + 1) bs' (replaceAll (placeholder i0) b h)
    by_cases hji : j = i0
    · subst hji
      apply restoreFrom_preserve bs' (j + 1) _ (placeholder j)
        (placeholder_ne_nil j) (placeholder_no_lt j) (placeholder_no_gt j)
        (sentinel_prefix_placeholder j)
        (fun b2 hb2 => hgood b2 (List.mem_cons_of_mem b hb2))
      exact subGo_replace_self (placeholder j) b (placeholder_ne_nil j) hbne
        (fun hcon => hbs ((sentinel_prefix_placeholder j).isInfix.trans hcon))
        (by
          intro c2 hc2 hmem
          rw [hbh] at hc2
          have h2 : '<' = c2 := by simpa using hc2
          exact placeholder_no_lt j (h2 ▸ hmem))
        (by
          intro c2 hc2 hmem
          rw [hbl] at hc2
          have h2 : '>' = c2 := by simpa using hc2
          exact placeholder_no_gt j (h2 ▸ hmem))
        h 0
    · refine ih (i0 + 1) _ (fun b2 hb2 => hgood b2 (List.mem_cons_of_mem b hb2)) j
        (by omega) ?_
      simp only [List.length_cons] at hj2
      omega

/-- C1 amended: for every input in which the sentinel stem
`__CODE_BLOCK_` does not occur, every placeholder emitted during
extraction is replaced during restoration: for each index `i` below the
number of extracted blocks, the token `__CODE_BLOCK_i__` does not occur
in the output of convert.  (Placeholder-shaped text can still reach the
output when the input itself contains the sentinel, as the
counterexample shows.) -/
theorem C1_placeholders_replaced (md : List Char) (hmd : ¬ sentinel <:+: md)
    (i : Nat) (hi : i < (extractGo 0 [] md).2.length) :
    ¬ placeholder i <:+: convert md := by
  have hgood := extractGo_blocks_good md 0 [] hmd (by simp)
  exact restoreFrom_no_placeholder (extractGo 0 [] md).2 0 _ hgood i
    (Nat.zero_le i) (by simpa using hi)

/-- C1 witness: a concrete input with one fenced block satisfies the
hypotheses, and its placeholder does not survive into the output. -/
theorem C1_placeholders_replaced_witness :
    (¬ sentinel <:+: "```\nx\n```".toList) ∧
    0 < (extractGo 0 [] "```\nx\n```".toList).2.length ∧
    ¬ placeholder 0 <:+: convert "```\nx\n```".toList :=
  ⟨by decide, by decide, C1_placeholders_replaced _ (by decide) 0 (by decide)⟩

/-- C10: neither the bold nor the italic substitution rewrites a span
whose delimiters lie on different lines.  Both passes distribute over
every newline of the buffer (so no strong or em element ever spans a
line boundary), and on the concrete two-line input the asterisks are
left intact. -/
theorem C10_emphasis_line_local :
    (∀ a b : List Char,
        reSub tryBold (a ++ '\n' :: b) = reSub tryBold a ++ '\n' :: reSub tryBold b) ∧
    (∀ a b : List Char,
        reSub tryItalic (a ++ '\n' :: b) = reSub tryItalic a ++ '\n' :: reSub tryItalic b) ∧
    convertStr "**a\nb**" = "<p>**a</p>\n<p>b**</p>" := by
  refine ⟨fun a b => ?_, fun a b => ?_, by decide⟩
  · exact subGo_split tryBold tryBold_append_nl tryBold_le (by decide) a 0 b (Nat.zero_le _)
  · exact subGo_split tryItalic tryItalic_append_nl tryItalic_le (by decide) a 0 b (Nat.zero_le _)

/-- C2 counterexample: the input made of one backtick span whose content
has the link shape IS rewritten by the later link pass — the output
contains an anchor element, refuting "is not rewritten as a link". -/
theorem C2_counterexample :
    convertStr "`[a](b)`" = "<code><a href=\"b\">a</a></code>" ∧
    ("<a href=".toList <:+: convert "`[a](b)`".toList) := by
  exact ⟨by decide, by decide⟩

/-- C2 amended: inline code runs before the link pass and turns a
single-backtick span into a code element, but it does not protect the
span: the later link pass rewrites bracket/paren content inside the
code element. -/
theorem C2_inline_code_before_links :
    convertStr "`x`" = "<code>x</code>" ∧
    convertStr "`[a](b)`" = "<code><a href=\"b\">a</a></code>" := by
  exact ⟨by decide, by decide⟩

/-- C4: code-block content is escaped exactly once, `&` first: a fenced
block containing `<div>` yields the literal `&lt;div&gt;`, never the
double-escaped `&amp;lt;`. -/
theorem C4_escape_exactly_once :
    convertStr "```\n<div>\n```" = "<pre><code class=\"language-text\">&lt;div&gt;</code></pre>" ∧
    ("&lt;div&gt;".toList <:+: convert "```\n<div>\n```".toList) ∧
    ¬ ("&amp;lt;".toList <:+: convert "```\n<div>\n```".toList) ∧
    escape_html "<div>".toList = "&lt;div&gt;".toList := by
  refine ⟨by decide, by decide, by decide, by decide⟩

/-- C6: the three-line table converts to exactly one table with header
cells A and B and one body row whose cell holds inline code. -/
theorem C6_table_round_trip :
    countSub "<table>".toList (convert "| A | B |\n|---|---|\n| 1 | `x` |".toList) = 1 ∧
    ("<th>A</th>".toList <:+: convert "| A | B |\n|---|---|\n| 1 | `x` |".toList) ∧
    ("<th>B</th>".toList <:+: convert "| A | B |\n|---|---|\n| 1 | `x` |".toList) ∧
    countSub "<th>".toList (convert "| A | B |\n|---|---|\n| 1 | `x` |".toList) = 2 ∧
    countSub "<tr>".toList (convert "| A | B |\n|---|---|\n| 1 | `x` |".toList) = 2 ∧
    ("<td><code>x</code></td>".toList <:+: convert "| A | B |\n|---|---|\n| 1 | `x` |".toList) ∧
    countSub "<td>".toList (convert "| A | B |\n|---|---|\n| 1 | `x` |".toList) = 2 := by
  refine ⟨by decide, by decide, by decide, by decide, by decide, by decide, by decide⟩

/-- C7: a `- text` line becomes a list item, and three consecutive item
lines produce exactly one list with three items. -/
theorem C7_list_grouping :
    listItemLine "- text".toList = "<li>text</li>".toList ∧
    convertStr "- item\n- item\n- item" = "<ul><li>item</li>\n<li>item</li>\n<li>item</li></ul>" ∧
    countSub "<ul>".toList (convert "- item\n- item\n- item".toList) = 1 ∧
    countSub "<li>".toList (convert "- item\n- item\n- item".toList) = 3 := by
  refine ⟨by decide, by decide, by decide, by decide⟩

/-- C8: a non-absolute image source is prefixed with exactly one `../`;
http, https and root-relative sources are left unprefixed. -/
theorem C8_image_path_rewrite :
    convertStr "![x](pic.png)" = "<img src=\"../pic.png\" alt=\"x\" style=\"max-width:100%;height:auto;\">" ∧
    convertStr "![x](https://a/b.png)" = "<img src=\"https://a/b.png\" alt=\"x\" style=\"max-width:100%;height:auto;\">" ∧
    convertStr "![x](http://a/b.png)" = "<img src=\"http://a/b.png\" alt=\"x\" style=\"max-width:100%;height:auto;\">" ∧
    convertStr "![x](/r.png)" = "<img src=\"/r.png\" alt=\"x\" style=\"max-width:100%;height:auto;\">" := by
  refine ⟨by decide, by decide, by decide, by decide⟩

/-- C1 counterexample: an input that itself contains a placeholder-shaped
string (and has no code block) keeps it: the output does contain an
occurrence of the placeholder sentinel pattern. -/
theorem C1_counterexample :
    convertStr "__CODE_BLOCK_0__" = "__CODE_BLOCK_0__" ∧
    (placeholder 0 <:+: convert "__CODE_BLOCK_0__".toList) := by
  exact ⟨by decide, by decide⟩

/-- C3 amended: the code drops the first and last fields of the pipe
split unconditionally; when the header line both starts and ends with a
pipe this coincides with the spec rule of dropping only the outer empty
fields, but a nonempty outer field (missing leading or trailing pipe)
is dropped as well. -/
theorem C3_header_cells (line : List Char)
    (hh : line.head? = some '|') (hl : line.getLast? = some '|') :
    cellsOf line = specHeaderCells line := by
  obtain ⟨rest, rfl⟩ : ∃ rest, line = '|' :: rest := by
    cases line with
    | nil => exact absurd hh (by simp)
    | cons a l =>
      refine ⟨l, ?_⟩
      simp only [List.head?_cons, Option.some.injEq] at hh
      rw [hh]
  have hmem : '|' ∈ ('|' :: rest).getLast? := by
    rw [Option.mem_def]; exact hl
  have hdecomp : ('|' :: rest).dropLast ++ ['|'] = '|' :: rest :=
    List.dropLast_append_getLast? '|' hmem
  have hFne : pySplit '|' rest ≠ [] := pySplit_ne_nil '|' rest
  have hfields : pySplit '|' ('|' :: rest) = [] :: pySplit '|' rest :=
    pySplit_cons_sep '|' rest
  have hfields2 : pySplit '|' ('|' :: rest)
      = pySplit '|' (('|' :: rest).dropLast) ++ [[]] := by
    conv_lhs => rw [← hdecomp]
    exact pySplit_append_sep '|' _
  have hlast : (pySplit '|' rest).getLast? = some [] := by
    have h1 : ([] :: pySplit '|' rest).getLast? = some [] := by
      rw [← hfields, hfields2]
      rw [List.getLast?_append_of_ne_nil _ (by simp)]
      rfl
    rw [show ([] : List Char) :: pySplit '|' rest = [[]] ++ pySplit '|' rest from rfl,
      List.getLast?_append_of_ne_nil _ hFne] at h1
    exact h1
  unfold cellsOf specHeaderCells
  rw [hfields]
  cases hF : pySplit '|' rest with
  | nil => exact absurd hF hFne
  | cons f fs =>
    rw [hF] at hlast
    simp [hlast]

/-- C3 witness: on a well-formed header line both hypotheses hold and
the two cell computations agree. -/
theorem C3_header_cells_witness :
    ("| A | B |".toList.head? = some '|') ∧
    ("| A | B |".toList.getLast? = some '|') ∧
    cellsOf "| A | B |".toList = specHeaderCells "| A | B |".toList :=
  ⟨by decide, by decide, C3_header_cells _ (by decide) (by decide)⟩

/-- C3 counterexample: for the header line "| A | B" (no trailing pipe)
the code drops the nonempty outer field "B", while the spec rule keeps
it; the rendered table has no cell B. -/
theorem C3_counterexample :
    cellsOf "| A | B".toList = ["A".toList] ∧
    specHeaderCells "| A | B".toList = ["A".toList, "B".toList] ∧
    isTableLine "| A | B".toList = true ∧
    ("<th>A</th>".toList <:+: convert "| A | B\n|---|---|".toList) ∧
    ¬ ("<th>B</th>".toList <:+: convert "| A | B\n|---|---|".toList) := by
  refine ⟨by decide, by decide, by decide, by decide, by decide⟩

end Flowery
